import Mathlib

/-!
Verification of the execution core of the hyperledger-burrow node:
the KVCache overlay store, the proposal write-back cache, the BondTx
execution context, and the Transactor broadcast pipeline, shallowly
embedded from the Go source.
-/

set_option linter.unusedVariables false
set_option linter.unnecessarySeqFocus false

namespace Burrow

/-! ### Byte strings and `bytes.Compare`

Go byte slices are modelled as `List Nat`; `bytesCompare` is the
byte-lexicographic comparison of Go's `bytes.Compare` (element-wise,
a strict prefix compares less). -/

abbrev Bytes := List Nat

/-- Comparison of two bytes, as Go compares byte values. -/
def byteCompare (a b : Nat) : Ordering :=
  if a < b then .lt else if b < a then .gt else .eq

/-- Embeds Go `bytes.Compare`: lexicographic byte comparison where a
strict prefix is less than the longer string. -/
def bytesCompare : Bytes → Bytes → Ordering
  | [], [] => .eq
  | [], _ :: _ => .lt
  | _ :: _, [] => .gt
  | a :: as, b :: bs =>
    match byteCompare a b with
    | .eq => bytesCompare as bs
    | o => o

theorem byteCompare_eq_iff {a b : Nat} : byteCompare a b = .eq ↔ a = b := by
  unfold byteCompare
  split_ifs with h1 h2
  · constructor
    · intro h; simp at h
    · intro h; omega
  · constructor
    · intro h; simp at h
    · intro h; omega
  · constructor
    · intro h; omega
    · intro h; rfl

theorem byteCompare_lt_iff {a b : Nat} : byteCompare a b = .lt ↔ a < b := by
  unfold byteCompare
  split_ifs with h1 h2
  · simp [h1]
  · constructor
    · intro h; simp at h
    · intro h; omega
  · constructor
    · intro h; simp at h
    · intro h; omega

theorem byteCompare_gt_iff {a b : Nat} : byteCompare a b = .gt ↔ b < a := by
  unfold byteCompare
  split_ifs with h1 h2
  · constructor
    · intro h; simp at h
    · intro h; omega
  · simp [h2]
  · constructor
    · intro h; simp at h
    · intro h; omega

theorem bytesCompare_eq_iff : ∀ {a b : Bytes}, bytesCompare a b = .eq ↔ a = b
  | [], [] => by simp [bytesCompare]
  | [], _ :: _ => by simp [bytesCompare]
  | _ :: _, [] => by simp [bytesCompare]
  | a :: as, b :: bs => by
    simp only [bytesCompare]
    rcases hab : byteCompare a b with h | h | h
    · simp only []
      constructor
      · intro h; exact absurd h (by simp)
      · intro h
        injection h with h1 _
        rw [byteCompare_eq_iff.mpr h1] at hab
        exact absurd hab (by simp)
    · rw [byteCompare_eq_iff] at hab
      subst hab
      simp [bytesCompare_eq_iff]
    · simp only []
      constructor
      · intro h; exact absurd h (by simp)
      · intro h
        injection h with h1 _
        rw [byteCompare_eq_iff.mpr h1] at hab
        exact absurd hab (by simp)

theorem bytesCompare_self (a : Bytes) : bytesCompare a a = .eq :=
  bytesCompare_eq_iff.mpr rfl

theorem byteCompare_swap (a b : Nat) :
    byteCompare b a = (byteCompare a b).swap := by
  unfold byteCompare
  split_ifs <;> simp_all [Ordering.swap] <;> omega

theorem bytesCompare_swap : ∀ a b : Bytes, bytesCompare b a = (bytesCompare a b).swap
  | [], [] => by simp [bytesCompare, Ordering.swap]
  | [], _ :: _ => by simp [bytesCompare, Ordering.swap]
  | _ :: _, [] => by simp [bytesCompare, Ordering.swap]
  | a :: as, b :: bs => by
    simp only [bytesCompare, byteCompare_swap a b]
    rcases byteCompare a b with _ | _ | _
    · simp [Ordering.swap]
    · simpa [Ordering.swap] using bytesCompare_swap as bs
    · simp [Ordering.swap]

theorem byteCompare_lt_trans {a b c : Nat} (h1 : byteCompare a b = .lt)
    (h2 : byteCompare b c = .lt) : byteCompare a c = .lt := by
  rw [byteCompare_lt_iff] at *
  omega

theorem bytesCompare_lt_trans :
    ∀ {a b c : Bytes}, bytesCompare a b = .lt → bytesCompare b c = .lt →
      bytesCompare a c = .lt
  | [], [], _, h1, _ => by simp [bytesCompare] at h1
  | [], _ :: _, [], _, h2 => by simp [bytesCompare] at h2
  | [], _ :: _, _ :: _, _, _ => by simp [bytesCompare]
  | _ :: _, [], _, h1, _ => by simp [bytesCompare] at h1
  | _ :: _, _ :: _, [], _, h2 => by simp [bytesCompare] at h2
  | a :: as, b :: bs, c :: cs, h1, h2 => by
    simp only [bytesCompare] at h1 h2 ⊢
    rcases hab : byteCompare a b with _ | _ | _ <;> rw [hab] at h1
    case lt =>
      rcases hbc : byteCompare b c with _ | _ | _ <;> rw [hbc] at h2
      case lt => rw [byteCompare_lt_trans hab hbc]
      case eq =>
        have hb := byteCompare_eq_iff.mp hbc
        subst hb
        rw [hab]
      case gt => exact absurd h2 (by simp)
    case eq =>
      have hb := byteCompare_eq_iff.mp hab
      subst hb
      rcases hbc : byteCompare a c with _ | _ | _ <;> rw [hbc] at h2
      case eq => exact bytesCompare_lt_trans h1 h2
      case gt => exact absurd h2 (by simp)
    case gt => exact absurd h1 (by simp)

/-- The non-strict order used when sorting byte strings: the negation of
`bytes.Compare(a, b) == 1`. -/
def bytesLe (a b : Bytes) : Prop := bytesCompare a b ≠ .gt

instance : DecidableRel bytesLe := fun a b => by
  unfold bytesLe; infer_instance

theorem bytesLe_total (a b : Bytes) : bytesLe a b ∨ bytesLe b a := by
  unfold bytesLe
  rw [bytesCompare_swap a b]
  rcases bytesCompare a b with _ | _ | _ <;> simp [Ordering.swap]

theorem bytesLe_trans {a b c : Bytes} (h1 : bytesLe a b) (h2 : bytesLe b c) :
    bytesLe a c := by
  unfold bytesLe at *
  rcases hab : bytesCompare a b with _ | _ | _
  · rcases hbc : bytesCompare b c with _ | _ | _
    · simp [bytesCompare_lt_trans hab hbc]
    · have := bytesCompare_eq_iff.mp hbc; subst this; simp [hab]
    · exact absurd hbc h2
  · have := bytesCompare_eq_iff.mp hab; subst this; exact h2
  · exact absurd hab h1

theorem bytesLe_antisymm {a b : Bytes} (h1 : bytesLe a b) (h2 : bytesLe b a) :
    a = b := by
  unfold bytesLe at *
  rw [bytesCompare_swap a b] at h2
  rcases h : bytesCompare a b with _ | _ | _
  · rw [h] at h2; simp [Ordering.swap] at h2
  · exact bytesCompare_eq_iff.mp h
  · exact absurd h h1

instance : IsTotal Bytes bytesLe := ⟨bytesLe_total⟩

instance : IsTrans Bytes bytesLe := ⟨fun _ _ _ => bytesLe_trans⟩

instance : IsAntisymm Bytes bytesLe := ⟨fun _ _ => bytesLe_antisymm⟩

theorem bytesLe_of_lt {a b : Bytes} (h : bytesCompare a b = .lt) : bytesLe a b := by
  unfold bytesLe; simp [h]

theorem bytesLe_lt_or_eq {a b : Bytes} (h : bytesLe a b) :
    bytesCompare a b = .lt ∨ a = b := by
  unfold bytesLe at h
  rcases hab : bytesCompare a b with _ | _ | _
  · exact Or.inl rfl
  · exact Or.inr (bytesCompare_eq_iff.mp hab)
  · exact absurd hab h

/-! ### Association lists

Go maps are modelled as association lists with distinct keys; lookup and
insert-or-overwrite are the shared primitives. -/

/-- Lookup in an association list modelling a Go map. -/
def assocLookup {β : Type} (l : List (Bytes × β)) (k : Bytes) : Option β :=
  match l with
  | [] => none
  | (k1, v) :: rest => if k1 = k then some v else assocLookup rest k

/-- Insert-or-overwrite in an association list modelling a Go map write. -/
def assocSet {β : Type} (l : List (Bytes × β)) (k : Bytes) (v : β) :
    List (Bytes × β) :=
  match l with
  | [] => [(k, v)]
  | (k1, v1) :: rest =>
    if k1 = k then (k, v) :: rest else (k1, v1) :: assocSet rest k v

theorem assocLookup_assocSet_self {β : Type} (l : List (Bytes × β)) (k : Bytes)
    (v : β) : assocLookup (assocSet l k v) k = some v := by
  induction l with
  | nil => simp [assocSet, assocLookup]
  | cons kv rest ih =>
    obtain ⟨k1, v1⟩ := kv
    by_cases h : k1 = k <;> simp [assocSet, assocLookup, h, ih]

theorem assocLookup_assocSet_other {β : Type} (l : List (Bytes × β))
    (k k1 : Bytes) (v : β) (h : k1 ≠ k) :
    assocLookup (assocSet l k v) k1 = assocLookup l k1 := by
  induction l with
  | nil => simp [assocSet, assocLookup, Ne.symm h]
  | cons kv rest ih =>
    obtain ⟨k2, v2⟩ := kv
    by_cases h2 : k2 = k
    · subst h2
      simp [assocSet, assocLookup, Ne.symm h]
    · by_cases h3 : k2 = k1
      · subst h3
        simp [assocSet, assocLookup, h2]
      · simp [assocSet, assocLookup, h2, h3, ih]

theorem assocSet_keys_of_mem {β : Type} (l : List (Bytes × β)) (k : Bytes)
    (v : β) (h : (assocLookup l k).isSome) :
    (assocSet l k v).map Prod.fst = l.map Prod.fst := by
  induction l with
  | nil => simp [assocLookup] at h
  | cons kv rest ih =>
    obtain ⟨k1, v1⟩ := kv
    by_cases h1 : k1 = k
    · simp [assocSet, h1]
    · simp only [assocLookup, h1, if_false] at h
      simp [assocSet, h1, ih h]

/-! ### KVCache (overlay store)

Embeds `storage.KVCache` from the source: a map from byte keys to
`valueInfo{value, deleted}` plus a sidecar slice of keys appended to on
the first `Set`/`Delete` of a key. Go `[]byte` values may be nil; a
value is therefore an `Option Bytes` with `none` for nil. The zero
`valueInfo` returned for a missing map entry is `⟨none, false⟩`. -/

structure ValueInfo where
  value : Option Bytes
  deleted : Bool
deriving DecidableEq, Repr

structure KVCache where
  cache : List (Bytes × ValueInfo)
  keys : List Bytes
deriving DecidableEq, Repr

namespace KVCache

/-- Embeds `NewKVCache`. -/
def new : KVCache := ⟨[], []⟩

/-- Embeds `KVCache.Info`: the zero `valueInfo` for a missing entry. -/
def info (kvc : KVCache) (key : Bytes) : ValueInfo :=
  (assocLookup kvc.cache key).getD ⟨none, false⟩

/-- Embeds `KVCache.Get`: the stored value, nil for absent or tombstoned. -/
def get (kvc : KVCache) (key : Bytes) : Option Bytes :=
  (kvc.info key).value

/-- Embeds `KVCache.Has`: entry present in the map and not tombstoned. -/
def has (kvc : KVCache) (key : Bytes) : Bool :=
  match assocLookup kvc.cache key with
  | some vi => !vi.deleted
  | none => false

/-- Embeds `KVCache.Set`: appends the key to the sidecar on first touch,
then stores the value and clears the tombstone. -/
def set (kvc : KVCache) (key : Bytes) (value : Bytes) : KVCache :=
  let keys := match assocLookup kvc.cache key with
    | some _ => kvc.keys
    | none => kvc.keys ++ [key]
  { cache := assocSet kvc.cache key ⟨some value, false⟩, keys := keys }

/-- Embeds `KVCache.Delete`: appends the key to the sidecar on first touch,
then clears the value and marks the tombstone. -/
def delete (kvc : KVCache) (key : Bytes) : KVCache :=
  let keys := match assocLookup kvc.cache key with
    | some _ => kvc.keys
    | none => kvc.keys ++ [key]
  { cache := assocSet kvc.cache key ⟨none, true⟩, keys := keys }

/-- Embeds `KVCache.Reset`: reinitialises the backing map. The sidecar
`keys` slice is left untouched, exactly as in the source. -/
def reset (kvc : KVCache) : KVCache :=
  { kvc with cache := [] }

/-- Domain bound: `none` models a nil Go byte slice. -/
abbrev Bound := Option Bytes

/-- Modelled from the spec: `storage.CompareKeys` is not under `src/`.
Per the spec, a nil high bound is an open-ended sentinel above every
key; comparison is otherwise byte-lexicographic. -/
def compareKeys (key : Bytes) (bound : Bound) : Ordering :=
  match bound with
  | none => .lt
  | some b => bytesCompare key b

/-- Modelled from the spec: `storage.NormaliseDomain` is not under
`src/`. Per the spec, it coerces a nil low bound to the empty key and
leaves a nil high bound as the open-ended sentinel. -/
def normaliseDomain (low high : Bound) : Bound × Bound :=
  (some (low.getD []), high)

/-- Embeds `KVCache.sortedKeysInDomain`: sorts the sidecar keys, seeks to
the first key `≥ low` (inclusive start) and cuts at the first key `≥ high`
(exclusive end). The in-place `sort.Sort` of the Go slice is modelled by
sorting persistently; Go's comparison sort and insertion sort agree on
lists of plain values. -/
def sortedKeysInDomain (kvc : KVCache) (low high : Bound) : List Bytes :=
  let sortedKeys := List.insertionSort bytesLe kvc.keys
  ((sortedKeys.dropWhile fun key => compareKeys key low = .lt).takeWhile
    fun key => compareKeys key high = .lt)

/-- Embeds `KVCache.Iterator` composed with draining the returned
`KVCacheIterator`: the sequence of keys the forward iterator yields. -/
def iteratorKeys (kvc : KVCache) (low high : Bound) : List Bytes :=
  let (low, high) := normaliseDomain low high
  kvc.sortedKeysInDomain low high

end KVCache

/-- A client-visible mutation of the KVCache. -/
inductive KVOp where
  | set (key value : Bytes)
  | delete (key : Bytes)
deriving DecidableEq, Repr

/-- The key an operation touches. -/
def KVOp.key : KVOp → Bytes
  | .set k _ => k
  | .delete k => k

/-- Applies one mutation. -/
def KVCache.applyOp (kvc : KVCache) : KVOp → KVCache
  | .set k v => kvc.set k v
  | .delete k => kvc.delete k

/-- Applies a sequence of mutations in order. -/
def KVCache.applyOps (kvc : KVCache) (ops : List KVOp) : KVCache :=
  ops.foldl KVCache.applyOp kvc

/-- The last operation in `ops` that touches key `k`, if any. -/
def lastOpOn (k : Bytes) (ops : List KVOp) : Option KVOp :=
  (ops.filter fun op => op.key = k).getLast?

namespace KVCache

theorem get_set_self (kvc : KVCache) (k v : Bytes) :
    (kvc.set k v).get k = some v := by
  simp [get, info, set, assocLookup_assocSet_self]

theorem has_set_self (kvc : KVCache) (k v : Bytes) :
    (kvc.set k v).has k = true := by
  simp [has, set, assocLookup_assocSet_self]

theorem get_delete_self (kvc : KVCache) (k : Bytes) :
    (kvc.delete k).get k = none := by
  simp [get, info, delete, assocLookup_assocSet_self]

theorem has_delete_self (kvc : KVCache) (k : Bytes) :
    (kvc.delete k).has k = false := by
  simp [has, delete, assocLookup_assocSet_self]

theorem lookup_applyOp_other (kvc : KVCache) (op : KVOp) (k : Bytes)
    (h : op.key ≠ k) :
    assocLookup (kvc.applyOp op).cache k = assocLookup kvc.cache k := by
  cases op with
  | set k1 v =>
    simp only [KVOp.key] at h
    simpa [applyOp, set] using assocLookup_assocSet_other _ _ k _ (Ne.symm h)
  | delete k1 =>
    simp only [KVOp.key] at h
    simpa [applyOp, delete] using assocLookup_assocSet_other _ _ k _ (Ne.symm h)

theorem get_applyOp_other (kvc : KVCache) (op : KVOp) (k : Bytes)
    (h : op.key ≠ k) : (kvc.applyOp op).get k = kvc.get k := by
  simp [get, info, lookup_applyOp_other kvc op k h]

theorem has_applyOp_other (kvc : KVCache) (op : KVOp) (k : Bytes)
    (h : op.key ≠ k) : (kvc.applyOp op).has k = kvc.has k := by
  simp [has, lookup_applyOp_other kvc op k h]

theorem applyOps_append (kvc : KVCache) (ops : List KVOp) (op : KVOp) :
    kvc.applyOps (ops ++ [op]) = (kvc.applyOps ops).applyOp op := by
  simp [applyOps, List.foldl_append]

end KVCache

theorem lastOpOn_append (k : Bytes) (ops : List KVOp) (op : KVOp) :
    lastOpOn k (ops ++ [op]) =
      if op.key = k then some op else lastOpOn k ops := by
  by_cases h : op.key = k <;>
    simp [lastOpOn, List.filter_append, h, List.getLast?_concat]

/-- C4. For every key `k` and every finite sequence of `Set(k, v)` and
`Delete(k)` operations, the observable state of `k` is determined by the
last operation on `k` alone: a final `Set(k, v)` gives `Get(k) = v` and
`Has(k) = true` (any earlier tombstone cleared), a final `Delete(k)` gives
`Get(k) = nil` and `Has(k) = false`. -/
theorem kvcache_last_op_wins (kvc : KVCache) (ops : List KVOp) (k : Bytes) :
    (∀ v, lastOpOn k ops = some (.set k v) →
      (kvc.applyOps ops).get k = some v ∧ (kvc.applyOps ops).has k = true) ∧
    (lastOpOn k ops = some (.delete k) →
      (kvc.applyOps ops).get k = none ∧ (kvc.applyOps ops).has k = false) := by
  induction ops using List.reverseRecOn with
  | nil => simp [lastOpOn]
  | append_singleton ops op ih =>
    rw [lastOpOn_append, KVCache.applyOps_append]
    by_cases h : op.key = k
    · rw [if_pos h]
      cases op with
      | set k1 v1 =>
        have hk : k1 = k := h
        subst hk
        constructor
        · intro v hv
          injection hv with hv
          injection hv with _ hv
          subst hv
          exact ⟨KVCache.get_set_self _ _ _, KVCache.has_set_self _ _ _⟩
        · intro hv
          exact absurd hv (by simp)
      | delete k1 =>
        have hk : k1 = k := h
        subst hk
        constructor
        · intro v hv
          exact absurd hv (by simp)
        · intro _
          exact ⟨KVCache.get_delete_self _ _, KVCache.has_delete_self _ _⟩
    · rw [if_neg h, KVCache.get_applyOp_other _ _ _ h,
        KVCache.has_applyOp_other _ _ _ h]
      exact ih

/-- Witness for C4 at a concrete input: a set–delete–set sequence on key
`[1]` interleaved with writes to `[2]`, ending in `Set([1], [7])`. -/
theorem kvcache_last_op_wins_witness :
    lastOpOn [1] [KVOp.set [1] [5], KVOp.delete [1], KVOp.set [2] [9],
        KVOp.set [1] [7]] = some (.set [1] [7]) ∧
    (KVCache.new.applyOps [KVOp.set [1] [5], KVOp.delete [1],
        KVOp.set [2] [9], KVOp.set [1] [7]]).get [1] = some [7] ∧
    (KVCache.new.applyOps [KVOp.set [1] [5], KVOp.delete [1],
        KVOp.set [2] [9], KVOp.set [1] [7]]).has [1] = true := by
  refine ⟨by decide, ?_⟩
  have h := (kvcache_last_op_wins KVCache.new
    [KVOp.set [1] [5], KVOp.delete [1], KVOp.set [2] [9], KVOp.set [1] [7]]
    [1]).1 [7] (by decide)
  exact h

theorem dropWhile_eq_self_of_all {α : Type} (p : α → Bool) (l : List α)
    (h : ∀ x ∈ l, p x = false) : l.dropWhile p = l := by
  cases l with
  | nil => rfl
  | cons x xs => simp [List.dropWhile, h x (by simp)]

/-- The `Set` operations produced by a list of key/value pairs. -/
def setsOf (ks : List (Bytes × Bytes)) : List KVOp :=
  ks.map fun kv => KVOp.set kv.1 kv.2

theorem keys_applyOps_setsOf :
    ∀ (ks : List (Bytes × Bytes)) (kvc : KVCache),
      (∀ kv ∈ ks, assocLookup kvc.cache kv.1 = none) →
      (ks.map Prod.fst).Nodup →
      (kvc.applyOps (setsOf ks)).keys = kvc.keys ++ ks.map Prod.fst
  | [], kvc, _, _ => by simp [setsOf, KVCache.applyOps]
  | (k, v) :: ks, kvc, habs, hnd => by
    have hstep : kvc.applyOps (setsOf ((k, v) :: ks)) =
        (kvc.set k v).applyOps (setsOf ks) := by
      simp [setsOf, KVCache.applyOps, KVCache.applyOp]
    have hk : assocLookup kvc.cache k = none := habs (k, v) (by simp)
    have hkeys : (kvc.set k v).keys = kvc.keys ++ [k] := by
      simp [KVCache.set, hk]
    have habs2 : ∀ kv ∈ ks, assocLookup (kvc.set k v).cache kv.1 = none := by
      intro kv hkv
      have hne : kv.1 ≠ k := by
        intro hcontra
        have hmem : kv.1 ∈ ks.map Prod.fst := List.mem_map_of_mem _ hkv
        rw [hcontra] at hmem
        exact (List.nodup_cons.mp (by simpa using hnd)).1 hmem
      rw [KVCache.set]
      simp only []
      rw [assocLookup_assocSet_other _ _ _ _ hne]
      exact habs kv (by simp [hkv])
    have hnd2 : (ks.map Prod.fst).Nodup :=
      (List.nodup_cons.mp (by simpa using hnd)).2
    rw [hstep, keys_applyOps_setsOf ks (kvc.set k v) habs2 hnd2, hkeys]
    simp

/-- C5. Starting from a fresh KVCache, after `Set` operations on
distinct keys all in the half-open range `[low, high)`, the forward
iterator over `[low, high)` yields exactly those keys, each exactly once,
in strictly ascending byte-lexicographic order. -/
theorem kvcache_iterator_complete (ks : List (Bytes × Bytes)) (low high : Bytes)
    (hnd : (ks.map Prod.fst).Nodup)
    (hin : ∀ kv ∈ ks,
      bytesCompare kv.1 low ≠ .lt ∧ bytesCompare kv.1 high = .lt) :
    ((KVCache.new.applyOps (setsOf ks)).iteratorKeys (some low) (some high)).Perm
        (ks.map Prod.fst) ∧
    ((KVCache.new.applyOps (setsOf ks)).iteratorKeys
        (some low) (some high)).Pairwise
      (fun a b => bytesCompare a b = .lt) := by
  have hkeys : (KVCache.new.applyOps (setsOf ks)).keys = ks.map Prod.fst := by
    simpa [KVCache.new] using
      keys_applyOps_setsOf ks KVCache.new (by simp [KVCache.new, assocLookup]) hnd
  have hperm : (List.insertionSort bytesLe (ks.map Prod.fst)).Perm
      (ks.map Prod.fst) := List.perm_insertionSort _ _
  have hmem : ∀ x ∈ List.insertionSort bytesLe (ks.map Prod.fst),
      bytesCompare x low ≠ .lt ∧ bytesCompare x high = .lt := by
    intro x hx
    have hx2 : x ∈ ks.map Prod.fst := hperm.mem_iff.mp hx
    obtain ⟨kv, hkv, hfst⟩ := List.mem_map.mp hx2
    exact hfst ▸ hin kv hkv
  have hiter : (KVCache.new.applyOps (setsOf ks)).iteratorKeys
      (some low) (some high) =
      List.insertionSort bytesLe (ks.map Prod.fst) := by
    rw [KVCache.iteratorKeys]
    simp only [KVCache.normaliseDomain, Option.getD]
    rw [KVCache.sortedKeysInDomain]
    simp only [hkeys]
    rw [dropWhile_eq_self_of_all _ _ (by
      intro x hx
      simp only [decide_eq_false_iff_not]
      exact fun hc => (hmem x hx).1 hc)]
    rw [List.takeWhile_eq_self_iff.mpr (by
      intro x hx
      simp only [decide_eq_true_eq]
      exact (hmem x hx).2)]
  have hsorted : (List.insertionSort bytesLe (ks.map Prod.fst)).Sorted bytesLe :=
    List.sorted_insertionSort _ _
  have hnds : (List.insertionSort bytesLe (ks.map Prod.fst)).Nodup :=
    hperm.nodup_iff.mpr hnd
  refine ⟨hiter ▸ hperm, hiter ▸ ?_⟩
  have hand := List.Pairwise.and hsorted hnds
  exact hand.imp fun hab =>
    (bytesLe_lt_or_eq hab.1).resolve_right hab.2

/-- Witness for C5 at a concrete input: three distinct keys in the range
`[[1], [4])` inserted out of order. -/
theorem kvcache_iterator_complete_witness :
    ([([2], [10]), ([1], [20]), ([3], [30])].map Prod.fst).Nodup ∧
    ((KVCache.new.applyOps
        (setsOf [([2], [10]), ([1], [20]), ([3], [30])])).iteratorKeys
        (some [1]) (some [4])).Perm [[2], [1], [3]] ∧
    ((KVCache.new.applyOps
        (setsOf [([2], [10]), ([1], [20]), ([3], [30])])).iteratorKeys
        (some [1]) (some [4])).Pairwise
      (fun a b => bytesCompare a b = .lt) := by
  have h := kvcache_iterator_complete [([2], [10]), ([1], [20]), ([3], [30])]
    [1] [4] (by decide) (by decide)
  exact ⟨by decide, h.1, h.2⟩

/-- C6 counterexample. The claim that after `Reset()` an iterator over
the full domain yields no keys is false: `Reset` reinitialises the backing
map but leaves the sidecar key index intact, so a key set before the reset
is still yielded. -/
theorem kvcache_reset_iterator_counterexample :
    ((KVCache.new.set [1] [2]).reset.iteratorKeys none none = [[1]]) ∧
    [[1]] ≠ ([] : List Bytes) := by
  constructor
  · decide
  · decide

/-- C6 amended. After `Reset()`, `Get(k)` returns nil and `Has(k)` is
false for every key, regardless of the prior operations; but because the
sidecar key index is not cleared, an iterator still yields exactly the
keys touched before the reset (now with nil values and no tombstone): the
post-reset iterator coincides with the pre-reset one over any domain. -/
theorem kvcache_reset_amended (kvc : KVCache) (k : Bytes)
    (low high : KVCache.Bound) :
    kvc.reset.get k = none ∧
    kvc.reset.has k = false ∧
    kvc.reset.keys = kvc.keys ∧
    kvc.reset.iteratorKeys low high = kvc.iteratorKeys low high := by
  refine ⟨?_, ?_, rfl, rfl⟩
  · simp [KVCache.reset, KVCache.get, KVCache.info, assocLookup]
  · simp [KVCache.reset, KVCache.has, assocLookup]

/-! ### Proposal cache

Embeds `proposal.Cache` from `src/execution/proposal/cache.go`: a map
from proposal hash to `proposalInfo{ballot, removed, updated}` over a
read-through backend. Ballot contents are opaque; a Go `*payload.Ballot`
(nil-able pointer) is an `Option Ballot`. The backend `Reader` is
modelled as a pure map that never errors; the claims under study concern
only the cache's own error paths. -/

abbrev Ballot := List Nat

structure ProposalInfo where
  ballot : Option Ballot
  removed : Bool
  updated : Bool
deriving DecidableEq, Repr

structure ProposalCache where
  backend : List (Bytes × Ballot)
  proposals : List (Bytes × ProposalInfo)
deriving DecidableEq, Repr

/-- The two error returns of the proposal cache. -/
inductive ProposalErr where
  | updateRemoved
  | removeRemoved
deriving DecidableEq, Repr

namespace ProposalCache

/-- Embeds `Cache.get`: returns the cached entry, creating it from the
backend if missing (Go map insertion order is immaterial here because
`Sync` sorts; the new entry is appended). -/
def getInfo (c : ProposalCache) (h : Bytes) : ProposalCache × ProposalInfo :=
  match assocLookup c.proposals h with
  | some info => (c, info)
  | none =>
    let info : ProposalInfo := ⟨assocLookup c.backend h, false, false⟩
    ({ c with proposals := c.proposals ++ [(h, info)] }, info)

/-- Embeds `Cache.GetProposal`: nil if the entry is removed. -/
def getProposal (c : ProposalCache) (h : Bytes) :
    ProposalCache × Option Ballot :=
  let (c1, info) := c.getInfo h
  (c1, if info.removed then none else info.ballot)

/-- Embeds `Cache.UpdateProposal`: fails if previously removed, else
stores the ballot and marks the entry updated. -/
def updateProposal (c : ProposalCache) (h : Bytes) (ballot : Option Ballot) :
    ProposalCache × Option ProposalErr :=
  let (c1, info) := c.getInfo h
  if info.removed then (c1, some .updateRemoved)
  else ({ c1 with
    proposals := assocSet c1.proposals h ⟨ballot, info.removed, true⟩ }, none)

/-- Embeds `Cache.RemoveProposal`: fails if already removed, else marks
the entry removed. -/
def removeProposal (c : ProposalCache) (h : Bytes) :
    ProposalCache × Option ProposalErr :=
  let (c1, info) := c.getInfo h
  if info.removed then (c1, some .removeRemoved)
  else ({ c1 with
    proposals := assocSet c1.proposals h
      ⟨info.ballot, true, info.updated⟩ }, none)

end ProposalCache

/-- A call the `Sync` loop makes on the downstream writer. -/
inductive WriteOp where
  | removeOp (hash : Bytes)
  | updateOp (hash : Bytes) (ballot : Option Ballot)
deriving DecidableEq, Repr

/-- The hash a writer call names. -/
def writeOpHash : WriteOp → Bytes
  | .removeOp h => h
  | .updateOp h _ => h

namespace ProposalCache

/-- The body of the `Sync` loop for one hash: `RemoveProposal` on the
writer if the entry is removed, else `UpdateProposal` if updated, else
nothing. -/
def syncWriteFor (c : ProposalCache) (h : Bytes) : Option WriteOp :=
  match assocLookup c.proposals h with
  | some info =>
    if info.removed then some (.removeOp h)
    else if info.updated then some (.updateOp h info.ballot)
    else none
  | none => none

/-- Embeds `Cache.Sync` against a recording writer that never errors:
snapshots the hashes, sorts them ascending with
`ProposalHashArray.Less` (`bytes.Compare == -1`), and emits the writer
call for each hash in that order. -/
def syncOps (c : ProposalCache) : List WriteOp :=
  (List.insertionSort bytesLe (c.proposals.map Prod.fst)).filterMap
    c.syncWriteFor

/-- Whether the cached entry for `h` is marked removed. -/
def removedIn (c : ProposalCache) (h : Bytes) : Bool :=
  match assocLookup c.proposals h with
  | some info => info.removed
  | none => false

end ProposalCache

/-- A client operation on the proposal cache within one generation. -/
inductive PCOp where
  | update (h : Bytes) (b : Option Ballot)
  | remove (h : Bytes)
  | get (h : Bytes)
deriving DecidableEq, Repr

/-- State effect of one client operation (discarding the return value). -/
def applyPCOp (c : ProposalCache) : PCOp → ProposalCache
  | .update h b => (c.updateProposal h b).1
  | .remove h => (c.removeProposal h).1
  | .get h => (c.getProposal h).1

/-- State effect of a sequence of client operations. -/
def applyPCOps (c : ProposalCache) (ops : List PCOp) : ProposalCache :=
  ops.foldl applyPCOp c

theorem assocLookup_append_of_some {β : Type} (l l2 : List (Bytes × β))
    (k : Bytes) (v : β) (h : assocLookup l k = some v) :
    assocLookup (l ++ l2) k = some v := by
  induction l with
  | nil => simp [assocLookup] at h
  | cons kv rest ih =>
    obtain ⟨k1, v1⟩ := kv
    by_cases h1 : k1 = k
    · simp only [assocLookup, h1, if_pos] at h ⊢
      simpa using h
    · simp only [assocLookup, h1, if_false, List.cons_append] at h ⊢
      exact ih h

theorem assocLookup_append_self {β : Type} (l : List (Bytes × β)) (k : Bytes)
    (v : β) (h : assocLookup l k = none) :
    assocLookup (l ++ [(k, v)]) k = some v := by
  induction l with
  | nil => simp [assocLookup]
  | cons kv rest ih =>
    obtain ⟨k1, v1⟩ := kv
    by_cases h1 : k1 = k
    · simp [assocLookup, h1] at h
    · simp only [assocLookup, h1, if_false, List.cons_append] at h ⊢
      exact ih h

theorem lookup_getInfo_preserved (c : ProposalCache) (h h2 : Bytes)
    (info : ProposalInfo) (hl : assocLookup c.proposals h = some info) :
    assocLookup (c.getInfo h2).1.proposals h = some info := by
  rw [ProposalCache.getInfo]
  cases hl2 : assocLookup c.proposals h2 with
  | some info2 => exact hl
  | none => exact assocLookup_append_of_some _ _ _ _ hl

theorem getInfo_lookup_self (c : ProposalCache) (h : Bytes) :
    assocLookup (c.getInfo h).1.proposals h = some (c.getInfo h).2 := by
  rw [ProposalCache.getInfo]
  cases hl : assocLookup c.proposals h with
  | some info => exact hl
  | none => exact assocLookup_append_self _ _ _ hl

theorem removedIn_applyPCOp (c : ProposalCache) (op : PCOp) (h : Bytes)
    (hrem : c.removedIn h = true) : (applyPCOp c op).removedIn h = true := by
  rw [ProposalCache.removedIn] at hrem
  cases hl : assocLookup c.proposals h with
  | none => rw [hl] at hrem; simp at hrem
  | some info =>
    rw [hl] at hrem
    have hrem2 : info.removed = true := hrem
    have hpres : ∀ h2, assocLookup (c.getInfo h2).1.proposals h = some info :=
      fun h2 => lookup_getInfo_preserved c h h2 info hl
    cases op with
    | get h2 =>
      simp only [applyPCOp, ProposalCache.getProposal]
      rw [ProposalCache.removedIn, hpres h2]
      exact hrem2
    | update h2 b =>
      simp only [applyPCOp, ProposalCache.updateProposal]
      by_cases he : h2 = h
      · subst he
        have hinfo : (c.getInfo h2).2 = info := by
          have hself := getInfo_lookup_self c h2
          rw [hpres h2] at hself
          injection hself with hself
          exact hself.symm
        rw [hinfo, hrem2]
        simp [ProposalCache.removedIn, hpres h2, hrem2]
      · by_cases hr2 : (c.getInfo h2).2.removed
        · rw [if_pos hr2]
          simp [ProposalCache.removedIn, hpres h2, hrem2]
        · rw [if_neg hr2]
          simp only [ProposalCache.removedIn]
          rw [assocLookup_assocSet_other _ _ _ _ (Ne.symm he), hpres h2]
          exact hrem2
    | remove h2 =>
      simp only [applyPCOp, ProposalCache.removeProposal]
      by_cases he : h2 = h
      · subst he
        have hinfo : (c.getInfo h2).2 = info := by
          have hself := getInfo_lookup_self c h2
          rw [hpres h2] at hself
          injection hself with hself
          exact hself.symm
        rw [hinfo, hrem2]
        simp [ProposalCache.removedIn, hpres h2, hrem2]
      · by_cases hr2 : (c.getInfo h2).2.removed
        · rw [if_pos hr2]
          simp [ProposalCache.removedIn, hpres h2, hrem2]
        · rw [if_neg hr2]
          simp only [ProposalCache.removedIn]
          rw [assocLookup_assocSet_other _ _ _ _ (Ne.symm he), hpres h2]
          exact hrem2

theorem removedIn_applyPCOps (c : ProposalCache) (ops : List PCOp) (h : Bytes)
    (hrem : c.removedIn h = true) : (applyPCOps c ops).removedIn h = true := by
  induction ops generalizing c with
  | nil => exact hrem
  | cons op ops ih =>
    exact ih (applyPCOp c op) (removedIn_applyPCOp c op h hrem)

theorem removeProposal_marks_removed (c : ProposalCache) (h : Bytes)
    (hok : (c.removeProposal h).2 = none) :
    (c.removeProposal h).1.removedIn h = true := by
  simp only [ProposalCache.removeProposal] at hok ⊢
  by_cases hr : (c.getInfo h).2.removed
  · rw [if_pos hr] at hok
    simp at hok
  · rw [if_neg hr]
    simp [ProposalCache.removedIn, assocLookup_assocSet_self]

theorem removedIn_blocks_ops (c : ProposalCache) (h : Bytes) (b : Option Ballot)
    (hrem : c.removedIn h = true) :
    (c.updateProposal h b).2 = some .updateRemoved ∧
    (c.removeProposal h).2 = some .removeRemoved ∧
    (c.getProposal h).2 = none := by
  rw [ProposalCache.removedIn] at hrem
  cases hl : assocLookup c.proposals h with
  | none => rw [hl] at hrem; simp at hrem
  | some info =>
    rw [hl] at hrem
    have hrem2 : info.removed = true := hrem
    have hinfo : c.getInfo h = (c, info) := by
      rw [ProposalCache.getInfo, hl]
    refine ⟨?_, ?_, ?_⟩
    · rw [ProposalCache.updateProposal, hinfo]
      simp [hrem2]
    · rw [ProposalCache.removeProposal, hinfo]
      simp [hrem2]
    · rw [ProposalCache.getProposal, hinfo]
      simp [hrem2]

/-- C9. Within one proposal cache generation, removal is terminal:
once `RemoveProposal(h)` has succeeded then — after any further cache
operations — `UpdateProposal(h)` errors, `RemoveProposal(h)` errors, and
`GetProposal(h)` returns nil. -/
theorem proposal_removal_terminal (c : ProposalCache) (h : Bytes)
    (hok : (c.removeProposal h).2 = none) (ops : List PCOp) (b : Option Ballot) :
    ((applyPCOps (c.removeProposal h).1 ops).updateProposal h b).2 =
      some .updateRemoved ∧
    ((applyPCOps (c.removeProposal h).1 ops).removeProposal h).2 =
      some .removeRemoved ∧
    ((applyPCOps (c.removeProposal h).1 ops).getProposal h).2 = none := by
  have h1 := removeProposal_marks_removed c h hok
  have h2 := removedIn_applyPCOps (c.removeProposal h).1 ops h h1
  exact removedIn_blocks_ops _ h b h2

/-- Witness for C9 at a concrete input: remove hash `[1]` from an empty
cache, then update another hash, then check all three behaviours at `[1]`. -/
theorem proposal_removal_terminal_witness :
    ((ProposalCache.mk [] []).removeProposal [1]).2 = none ∧
    ((applyPCOps ((ProposalCache.mk [] []).removeProposal [1]).1
        [PCOp.update [2] (some [5])]).updateProposal [1] (some [9])).2 =
      some .updateRemoved ∧
    ((applyPCOps ((ProposalCache.mk [] []).removeProposal [1]).1
        [PCOp.update [2] (some [5])]).removeProposal [1]).2 =
      some .removeRemoved ∧
    ((applyPCOps ((ProposalCache.mk [] []).removeProposal [1]).1
        [PCOp.update [2] (some [5])]).getProposal [1]).2 = none := by
  refine ⟨by decide, ?_⟩
  exact proposal_removal_terminal (ProposalCache.mk [] []) [1] (by decide)
    [PCOp.update [2] (some [5])] (some [9])

theorem assocLookup_isSome_iff_mem {β : Type} (l : List (Bytes × β))
    (k : Bytes) : (assocLookup l k).isSome ↔ k ∈ l.map Prod.fst := by
  induction l with
  | nil => simp [assocLookup]
  | cons kv rest ih =>
    obtain ⟨k1, v1⟩ := kv
    by_cases h1 : k1 = k
    · subst h1
      simp [assocLookup]
    · simp [assocLookup, h1, ih, Ne.symm h1]

theorem map_hash_filterMap_sublist (f : Bytes → Option WriteOp)
    (hf : ∀ x op, f x = some op → writeOpHash op = x) :
    ∀ l : List Bytes, ((l.filterMap f).map writeOpHash).Sublist l := by
  intro l
  induction l with
  | nil => simp
  | cons x xs ih =>
    cases hx : f x with
    | none =>
      rw [List.filterMap_cons_none hx]
      exact ih.cons x
    | some op =>
      rw [List.filterMap_cons_some hx]
      simpa [hf x op hx] using ih.cons₂ x

theorem filter_filterMap_of_not_mem (f : Bytes → Option WriteOp)
    (hf : ∀ x op, f x = some op → writeOpHash op = x) (h : Bytes)
    (l : List Bytes) (hmem : h ∉ l) :
    (l.filterMap f).filter (fun op => writeOpHash op = h) = [] := by
  induction l with
  | nil => simp
  | cons x xs ih =>
    have hx : x ≠ h := fun hc => hmem (hc ▸ List.mem_cons_self x xs)
    have hxs : h ∉ xs := fun hc => hmem (List.mem_cons_of_mem x hc)
    cases hfx : f x with
    | none => rw [List.filterMap_cons_none hfx]; exact ih hxs
    | some op =>
      rw [List.filterMap_cons_some hfx, List.filter_cons]
      rw [hf x op hfx]
      simp only [decide_eq_true_eq]
      rw [if_neg (by simpa using hx)]
      exact ih hxs

theorem filter_filterMap_of_mem (f : Bytes → Option WriteOp)
    (hf : ∀ x op, f x = some op → writeOpHash op = x) (h : Bytes)
    (l : List Bytes) (hnd : l.Nodup) (hmem : h ∈ l) :
    (l.filterMap f).filter (fun op => writeOpHash op = h) = (f h).toList := by
  induction l with
  | nil => simp at hmem
  | cons x xs ih =>
    obtain ⟨hx, hnds⟩ := List.nodup_cons.mp hnd
    rcases List.mem_cons.mp hmem with he | hin
    · subst he
      cases hfx : f h with
      | none =>
        rw [List.filterMap_cons_none hfx]
        rw [filter_filterMap_of_not_mem f hf h xs hx]
        simp [hfx]
      | some op =>
        rw [List.filterMap_cons_some hfx, List.filter_cons]
        have hop := hf h op hfx
        rw [hop]
        simp only [decide_eq_true_eq, if_pos rfl]
        rw [filter_filterMap_of_not_mem f hf h xs hx]
        simp [hfx]
    · have hxh : x ≠ h := fun hc => hx (hc ▸ hin)
      cases hfx : f x with
      | none => rw [List.filterMap_cons_none hfx]; exact ih hnds hin
      | some op =>
        rw [List.filterMap_cons_some hfx, List.filter_cons]
        rw [hf x op hfx]
        simp only [decide_eq_true_eq]
        rw [if_neg (by simpa using hxh)]
        exact ih hnds hin

theorem syncWriteFor_hash (c : ProposalCache) :
    ∀ x op, c.syncWriteFor x = some op → writeOpHash op = x := by
  intro x op hx
  rw [ProposalCache.syncWriteFor] at hx
  cases hl : assocLookup c.proposals x with
  | none => rw [hl] at hx; simp at hx
  | some info =>
    rw [hl] at hx
    have hx2 : (if info.removed = true then some (WriteOp.removeOp x)
        else if info.updated = true then some (WriteOp.updateOp x info.ballot)
        else none) = some op := hx
    by_cases hr : info.removed
    · rw [if_pos hr] at hx2
      injection hx2 with hx2
      rw [← hx2, writeOpHash]
    · rw [if_neg (by simpa using hr)] at hx2
      by_cases hu : info.updated
      · rw [if_pos hu] at hx2
        injection hx2 with hx2
        rw [← hx2, writeOpHash]
      · rw [if_neg (by simpa using hu)] at hx2
        simp at hx2

/-- C1. `Cache.Sync` visits the cached proposal hashes in strictly
ascending byte-lexicographic order; for each hash it calls
`RemoveProposal` on the writer if the entry is marked removed, else
`UpdateProposal` if it is marked updated, and writes nothing for entries
that were only read; consequently two caches holding the same proposal
entries produce the same ordered write sequence. -/
theorem proposal_sync_sorted_deterministic (c : ProposalCache)
    (hnd : (c.proposals.map Prod.fst).Nodup) :
    (c.syncOps.map writeOpHash).Pairwise (fun a b => bytesCompare a b = .lt) ∧
    (∀ h info, assocLookup c.proposals h = some info →
      c.syncOps.filter (fun op => writeOpHash op = h) =
        (if info.removed then [WriteOp.removeOp h]
         else if info.updated then [WriteOp.updateOp h info.ballot]
         else [])) ∧
    (∀ c2 : ProposalCache, (c2.proposals.map Prod.fst).Nodup →
      (∀ h, assocLookup c.proposals h = assocLookup c2.proposals h) →
      c.syncOps = c2.syncOps) := by
  have hperm : (List.insertionSort bytesLe (c.proposals.map Prod.fst)).Perm
      (c.proposals.map Prod.fst) := List.perm_insertionSort _ _
  have hnds : (List.insertionSort bytesLe (c.proposals.map Prod.fst)).Nodup :=
    hperm.nodup_iff.mpr hnd
  have hsorted :
      (List.insertionSort bytesLe (c.proposals.map Prod.fst)).Sorted bytesLe :=
    List.sorted_insertionSort _ _
  have hstrict :
      (List.insertionSort bytesLe (c.proposals.map Prod.fst)).Pairwise
        (fun a b => bytesCompare a b = .lt) :=
    (List.Pairwise.and hsorted hnds).imp fun hab =>
      (bytesLe_lt_or_eq hab.1).resolve_right hab.2
  refine ⟨?_, ?_, ?_⟩
  · exact hstrict.sublist
      (map_hash_filterMap_sublist c.syncWriteFor (syncWriteFor_hash c) _)
  · intro h info hl
    have hmem : h ∈ List.insertionSort bytesLe (c.proposals.map Prod.fst) :=
      hperm.mem_iff.mpr
        ((assocLookup_isSome_iff_mem _ _).mp (by simp [hl]))
    rw [ProposalCache.syncOps,
      filter_filterMap_of_mem c.syncWriteFor (syncWriteFor_hash c) h _
        hnds hmem]
    rw [ProposalCache.syncWriteFor, hl]
    by_cases hr : info.removed <;> by_cases hu : info.updated <;>
      simp [hr, hu]
  · intro c2 hnd2 heq
    have hmemeq : ∀ a, a ∈ c.proposals.map Prod.fst ↔
        a ∈ c2.proposals.map Prod.fst := by
      intro a
      rw [← assocLookup_isSome_iff_mem, ← assocLookup_isSome_iff_mem, heq a]
    have hperm12 : (c.proposals.map Prod.fst).Perm
        (c2.proposals.map Prod.fst) :=
      (List.perm_ext_iff_of_nodup hnd hnd2).mpr hmemeq
    have hsortseq : List.insertionSort bytesLe (c.proposals.map Prod.fst) =
        List.insertionSort bytesLe (c2.proposals.map Prod.fst) :=
      List.eq_of_perm_of_sorted
        (hperm.trans (hperm12.trans (List.perm_insertionSort _ _).symm))
        hsorted (List.sorted_insertionSort _ _)
    have hfeq : c.syncWriteFor = c2.syncWriteFor := by
      funext x
      rw [ProposalCache.syncWriteFor, ProposalCache.syncWriteFor, heq x]
    rw [ProposalCache.syncOps, ProposalCache.syncOps, hsortseq, hfeq]

/-- Witness for C1 at a concrete input: a cache holding hashes `[3]`
(updated), `[1]` (removed), `[2]` (only read), compared against the same
entries in a different order. -/
theorem proposal_sync_sorted_deterministic_witness :
    (ProposalCache.syncOps
        ⟨[], [([3], ⟨some [9], false, true⟩), ([1], ⟨none, true, false⟩),
          ([2], ⟨some [7], false, false⟩)]⟩ =
      [WriteOp.removeOp [1], WriteOp.updateOp [3] (some [9])]) ∧
    ProposalCache.syncOps
        ⟨[], [([3], ⟨some [9], false, true⟩), ([1], ⟨none, true, false⟩),
          ([2], ⟨some [7], false, false⟩)]⟩ =
      ProposalCache.syncOps
        ⟨[], [([2], ⟨some [7], false, false⟩), ([1], ⟨none, true, false⟩),
          ([3], ⟨some [9], false, true⟩)]⟩ := by
  constructor
  · decide
  · exact (proposal_sync_sorted_deterministic
      ⟨[], [([3], ⟨some [9], false, true⟩), ([1], ⟨none, true, false⟩),
        ([2], ⟨some [7], false, false⟩)]⟩ (by decide)).2.2
      ⟨[], [([2], ⟨some [7], false, false⟩), ([1], ⟨none, true, false⟩),
        ([3], ⟨some [9], false, true⟩)]⟩ (by decide)
      (by
        intro h
        simp only [assocLookup]
        by_cases h3 : ([3] : Bytes) = h <;> by_cases h2 : ([2] : Bytes) = h <;>
          by_cases h1 : ([1] : Bytes) = h <;>
          first
          | exact absurd (h3.trans h2.symm) (by decide)
          | exact absurd (h3.trans h1.symm) (by decide)
          | exact absurd (h2.trans h1.symm) (by decide)
          | simp_all)

/-! ### BondTx execution context

Embeds `BondContext.Execute` from
`src/execution/contexts/bond_context.go`. Accounts live in an
`acmstate.ReaderWriter` and validator powers in a
`validator.ReaderWriter`; both are modelled as association-list maps.
State writes are applied in source order (`validator.AddPower`, then
`State.UpdateAccount`), so an early error return leaves the state
exactly as it was. Helpers not under `src/` (`hasBondPermission`,
`Account.SubtractFromBalance`, `validator.AddPower`) are modelled from
the spec where noted. -/

inductive CurveType where
  | ed25519
  | secp256k1
deriving DecidableEq, Repr

structure PublicKey where
  curveType : CurveType
  keyBytes : Bytes
deriving DecidableEq, Repr

/-- An account as the bond context reads it. `bondPermission` is
modelled from the spec: `hasBondPermission` is not under `src/`; per the
spec it checks the bond permission on the account and the failure is
PermissionDenied. -/
structure Account where
  address : Bytes
  publicKey : PublicKey
  balance : Nat
  sequence : Nat
  bondPermission : Bool
deriving DecidableEq, Repr

/-- Validator powers keyed by public key bytes. Modelled from the spec:
`validator.AddPower` is not under `src/`; per the spec it adds the
amount to the validator power recorded for the account's public key,
creating the entry if new. -/
structure ValidatorSet where
  powers : List (Bytes × Int)
deriving DecidableEq, Repr

/-- The power recorded for a public key (0 when absent). -/
def ValidatorSet.power (vs : ValidatorSet) (pk : PublicKey) : Int :=
  (assocLookup vs.powers pk.keyBytes).getD 0

/-- Modelled from the spec: `validator.AddPower` adds `amount` to the
power recorded for `pk`, creating the entry if new. -/
def ValidatorSet.addPower (vs : ValidatorSet) (pk : PublicKey)
    (amount : Int) : ValidatorSet :=
  ⟨assocSet vs.powers pk.keyBytes (vs.power pk + amount)⟩

/-- The combined state the bond context reads and writes. -/
structure BondState where
  accounts : List (Bytes × Account)
  validators : ValidatorSet
deriving DecidableEq, Repr

/-- The input of a `BondTx` (address plus amount, as used by `Execute`). -/
structure TxInput where
  address : Bytes
  amount : Nat
deriving DecidableEq, Repr

structure BondTx where
  input : TxInput
deriving DecidableEq, Repr

/-- The payload union restricted to what the bond context inspects: a
`BondTx` or some other payload kind (triggering the wrong-payload
error). -/
inductive Payload where
  | bondTx (tx : BondTx)
  | otherTx
deriving DecidableEq, Repr

/-- The distinct error returns of `BondContext.Execute` (each is a
distinct `fmt.Errorf` in the source; `unknownAccount` stands for the
nil-account dereference on a missing input account). -/
inductive BondErr where
  | wrongPayload
  | unknownAccount
  | secpNotSupported
  | permissionDenied
  | zeroAmount
  | insufficientFunds
deriving DecidableEq, Repr

/-- Embeds `BondContext.Execute`: payload coercion, account load,
curve-type check, bond-permission check, amount and balance checks, then
balance subtraction, `validator.AddPower`, and `UpdateAccount`, in
source order. Returns the state as left by the writes performed before
the return. -/
def bondExecute (st : BondState) (p : Payload) : BondState × Option BondErr :=
  match p with
  | .otherTx => (st, some .wrongPayload)
  | .bondTx tx =>
    match assocLookup st.accounts tx.input.address with
    | none => (st, some .unknownAccount)
    | some account =>
      if account.publicKey.curveType = .secp256k1 then
        (st, some .secpNotSupported)
      else if !account.bondPermission then
        (st, some .permissionDenied)
      else if tx.input.amount = 0 then
        (st, some .zeroAmount)
      else if account.balance < tx.input.amount then
        (st, some .insufficientFunds)
      else
        let account2 := { account with
          balance := account.balance - tx.input.amount }
        let st2 := { st with
          validators := st.validators.addPower account.publicKey
            (Int.ofNat tx.input.amount) }
        ({ st2 with
          accounts := assocSet st2.accounts tx.input.address account2 }, none)

/-- C2. For every account with an ed25519 public key, the bond
permission, and balance ≥ amount > 0, `BondContext.Execute` on a
`BondTx` with that input succeeds: it subtracts the amount from the
account's balance, adds the amount to the validator power recorded for
the account's public key (creating the entry if new), and persists the
updated account. -/
theorem bond_execute_happy_path (st : BondState) (addr : Bytes)
    (account : Account) (amount : Nat)
    (hacc : assocLookup st.accounts addr = some account)
    (hcurve : account.publicKey.curveType = .ed25519)
    (hperm : account.bondPermission = true)
    (hpos : 0 < amount) (hbal : amount ≤ account.balance) :
    (bondExecute st (.bondTx ⟨⟨addr, amount⟩⟩)).2 = none ∧
    assocLookup (bondExecute st (.bondTx ⟨⟨addr, amount⟩⟩)).1.accounts addr =
      some { account with balance := account.balance - amount } ∧
    (bondExecute st (.bondTx ⟨⟨addr, amount⟩⟩)).1.validators.power
        account.publicKey =
      st.validators.power account.publicKey + amount := by
  have hcurve2 : account.publicKey.curveType ≠ .secp256k1 := by
    rw [hcurve]; intro hc; cases hc
  simp only [bondExecute, hacc]
  rw [if_neg hcurve2, if_neg (by simp [hperm]),
    if_neg (by omega), if_neg (by omega)]
  refine ⟨rfl, ?_, ?_⟩
  · exact assocLookup_assocSet_self _ _ _
  · simp [ValidatorSet.addPower, ValidatorSet.power,
      assocLookup_assocSet_self]

/-- Witness for C2 at a concrete input: balance 1000, bond permission,
ed25519 key, amount 400 gives balance 600 and power 400. -/
theorem bond_execute_happy_path_witness :
    (bondExecute
        ⟨[([10], ⟨[10], ⟨.ed25519, [77]⟩, 1000, 3, true⟩)], ⟨[]⟩⟩
        (.bondTx ⟨⟨[10], 400⟩⟩)).2 = none ∧
    assocLookup (bondExecute
        ⟨[([10], ⟨[10], ⟨.ed25519, [77]⟩, 1000, 3, true⟩)], ⟨[]⟩⟩
        (.bondTx ⟨⟨[10], 400⟩⟩)).1.accounts [10] =
      some ⟨[10], ⟨.ed25519, [77]⟩, 600, 3, true⟩ ∧
    (bondExecute
        ⟨[([10], ⟨[10], ⟨.ed25519, [77]⟩, 1000, 3, true⟩)], ⟨[]⟩⟩
        (.bondTx ⟨⟨[10], 400⟩⟩)).1.validators.power ⟨.ed25519, [77]⟩ =
      0 + (400 : Nat) := by
  exact bond_execute_happy_path
    ⟨[([10], ⟨[10], ⟨.ed25519, [77]⟩, 1000, 3, true⟩)], ⟨[]⟩⟩
    [10] ⟨[10], ⟨.ed25519, [77]⟩, 1000, 3, true⟩ 400
    (by decide) (by decide) (by decide) (by decide) (by decide)

/-- C3 counterexample. The claim names the errors for every input
account, but the curve-type check precedes the amount check: an existing
account whose public key is secp256k1, bonding amount 0, yields the
secp256k1 error, not ZeroAmount. -/
theorem bond_execute_errors_counterexample :
    (bondExecute
        ⟨[([10], ⟨[10], ⟨.secp256k1, [77]⟩, 1000, 3, true⟩)], ⟨[]⟩⟩
        (.bondTx ⟨⟨[10], 0⟩⟩)).2 = some .secpNotSupported ∧
    some BondErr.secpNotSupported ≠ some BondErr.zeroAmount := by
  constructor
  · decide
  · decide

/-- C3 amended. For every existing input account, `Execute` with
amount 0 or with balance < amount returns an error and leaves the state
unchanged; when the account additionally passes the curve-type and
bond-permission checks, the errors are ZeroAmount and InsufficientFunds
respectively. -/
theorem bond_execute_errors_amended (st : BondState) (addr : Bytes)
    (account : Account) (amount : Nat)
    (hacc : assocLookup st.accounts addr = some account) :
    (amount = 0 →
      (bondExecute st (.bondTx ⟨⟨addr, amount⟩⟩)).2.isSome = true ∧
      (bondExecute st (.bondTx ⟨⟨addr, amount⟩⟩)).1 = st) ∧
    (account.balance < amount →
      (bondExecute st (.bondTx ⟨⟨addr, amount⟩⟩)).2.isSome = true ∧
      (bondExecute st (.bondTx ⟨⟨addr, amount⟩⟩)).1 = st) ∧
    (account.publicKey.curveType ≠ .secp256k1 →
      account.bondPermission = true →
      (amount = 0 →
        (bondExecute st (.bondTx ⟨⟨addr, amount⟩⟩)).2 =
          some .zeroAmount) ∧
      (account.balance < amount →
        (bondExecute st (.bondTx ⟨⟨addr, amount⟩⟩)).2 =
          some .insufficientFunds)) := by
  simp only [bondExecute, hacc]
  by_cases hcurve : account.publicKey.curveType = .secp256k1
  · rw [if_pos hcurve]
    refine ⟨fun _ => ⟨rfl, rfl⟩, fun _ => ⟨rfl, rfl⟩, fun hc _ => ?_⟩
    exact absurd hcurve hc
  · rw [if_neg hcurve]
    by_cases hperm : account.bondPermission = true
    · rw [if_neg (by simp [hperm])]
      refine ⟨?_, ?_, fun _ _ => ⟨?_, ?_⟩⟩
      · intro hz
        rw [if_pos hz]
        exact ⟨rfl, rfl⟩
      · intro hlt
        rw [if_neg (by omega), if_pos hlt]
        exact ⟨rfl, rfl⟩
      · intro hz
        rw [if_pos hz]
      · intro hlt
        rw [if_neg (by omega), if_pos hlt]
    · rw [if_pos (by simpa using hperm)]
      exact ⟨fun _ => ⟨rfl, rfl⟩, fun _ => ⟨rfl, rfl⟩,
        fun _ hp => absurd hp hperm⟩

/-- Witness for the amended C3 at a concrete input: balance 100,
bonding 500 fails with InsufficientFunds and leaves the state unchanged. -/
theorem bond_execute_errors_amended_witness :
    ((100 : Nat) < 500) ∧
    (bondExecute
        ⟨[([10], ⟨[10], ⟨.ed25519, [77]⟩, 100, 3, true⟩)], ⟨[]⟩⟩
        (.bondTx ⟨⟨[10], 500⟩⟩)).2.isSome = true ∧
    (bondExecute
        ⟨[([10], ⟨[10], ⟨.ed25519, [77]⟩, 100, 3, true⟩)], ⟨[]⟩⟩
        (.bondTx ⟨⟨[10], 500⟩⟩)).1 =
      ⟨[([10], ⟨[10], ⟨.ed25519, [77]⟩, 100, 3, true⟩)], ⟨[]⟩⟩ ∧
    (bondExecute
        ⟨[([10], ⟨[10], ⟨.ed25519, [77]⟩, 100, 3, true⟩)], ⟨[]⟩⟩
        (.bondTx ⟨⟨[10], 500⟩⟩)).2 = some .insufficientFunds := by
  have h := bond_execute_errors_amended
    ⟨[([10], ⟨[10], ⟨.ed25519, [77]⟩, 100, 3, true⟩)], ⟨[]⟩⟩
    [10] ⟨[10], ⟨.ed25519, [77]⟩, 100, 3, true⟩ 500 (by decide)
  refine ⟨by decide, (h.2.1 (by decide)).1, (h.2.1 (by decide)).2, ?_⟩
  exact (h.2.2 (by decide) (by decide)).2 (by decide)

/-! ### Transactor

Embeds the broadcast pipeline of `src/execution/transactor.go`. The
`txs` package is not under `src/`, so envelopes are modelled from the
spec: a transaction carries inputs (address and sequence) and a hash
that must be recomputed after any signature-set mutation; signatories
carry the signing address. -/

namespace Txs

/-- A transaction input as the Transactor uses it: address and the
sequence number it assigns. -/
structure Input where
  address : Bytes
  sequence : Nat
deriving DecidableEq, Repr

/-- Modelled from the spec: the transaction hash is a deterministic
digest of the payload; an injective encoding of the inputs stands in for
the digest. -/
def hashOf (inputs : List Input) : Bytes :=
  inputs.foldl (fun acc i => acc ++ i.address ++ [i.sequence]) [0]

structure Tx where
  inputs : List Input
  txHash : Bytes
deriving DecidableEq, Repr

/-- Embeds `Tx.Rehash`: recomputes the memoised hash. -/
def Tx.rehash (tx : Tx) : Tx :=
  { tx with txHash := hashOf tx.inputs }

/-- A signatory of an envelope (address standing for address, public
key and signature). -/
structure Signatory where
  address : Bytes
deriving DecidableEq, Repr

structure Envelope where
  tx : Tx
  signatories : List Signatory
deriving DecidableEq, Repr

end Txs

/-- The observable outcome of `MaybeSignTxMempool`: the envelope as it
stands afterwards, the signing-account locks acquired (in acquisition
order, released by the returned unlock), and whether the transaction
hash was recomputed. An empty `lockedAddresses` means the returned
unlock is the no-op `func() {}`. -/
structure SignOutcome where
  env : Txs.Envelope
  lockedAddresses : List Bytes
  rehashed : Bool
deriving DecidableEq, Repr

inductive SignErr where
  | unknownSigningAccount (address : Bytes)
deriving DecidableEq, Repr

/-- Embeds the loop of `SignTxMempool` over the inputs: looks up each
input's `SequentialSigningAccount`, locks it, and assigns
`input.Sequence = sa.Sequence + 1`; returns the rewritten inputs and the
locked addresses in order. `mempoolAccounts` maps address to the
mempool sequence `sa.Sequence`. -/
def signInputs (mempoolAccounts : List (Bytes × Nat)) :
    List Txs.Input → Except SignErr (List Txs.Input × List Bytes)
  | [] => .ok ([], [])
  | input :: rest =>
    match assocLookup mempoolAccounts input.address with
    | none => .error (.unknownSigningAccount input.address)
    | some seq =>
      match signInputs mempoolAccounts rest with
      | .error e => .error e
      | .ok (inputs, locks) =>
        .ok ({ input with sequence := seq + 1 } :: inputs,
          input.address :: locks)

/-- Embeds `SignTxMempool`: assigns sequences under the per-input locks,
then signs, appending one signatory per input. -/
def signTxMempool (mempoolAccounts : List (Bytes × Nat))
    (env : Txs.Envelope) : Except SignErr SignOutcome :=
  match signInputs mempoolAccounts env.tx.inputs with
  | .error e => .error e
  | .ok (inputs, locks) =>
    .ok ⟨⟨⟨inputs, env.tx.txHash⟩,
      env.signatories ++ inputs.map fun i => ⟨i.address⟩⟩, locks, false⟩

/-- Embeds `MaybeSignTxMempool`: signs (and rehashes) only when the
envelope carries no signatories; otherwise returns the envelope as
provided together with the no-op unlock. -/
def maybeSignTxMempool (mempoolAccounts : List (Bytes × Nat))
    (env : Txs.Envelope) : Except SignErr SignOutcome :=
  if env.signatories.length = 0 then
    match signTxMempool mempoolAccounts env with
    | .error e => .error e
    | .ok out =>
      .ok ⟨⟨Txs.Tx.rehash out.env.tx, out.env.signatories⟩,
        out.lockedAddresses, true⟩
  else
    .ok ⟨env, [], false⟩

/-- C10. For every envelope already carrying at least one signatory,
`MaybeSignTxMempool` is a no-op: it returns the no-op unlock, acquires
no signing-account locks, assigns no sequence numbers, adds no
signatures, and does not recompute the transaction hash, so the envelope
is submitted exactly as provided at the sequences it already carries. -/
theorem maybe_sign_presigned_noop (mempoolAccounts : List (Bytes × Nat))
    (env : Txs.Envelope) (h : env.signatories ≠ []) :
    maybeSignTxMempool mempoolAccounts env = .ok ⟨env, [], false⟩ := by
  rw [maybeSignTxMempool, if_neg (by simpa using h)]

/-- Witness for C10 at a concrete input: an envelope with one signatory
and one input is passed through untouched. -/
theorem maybe_sign_presigned_noop_witness :
    maybeSignTxMempool [([5], 41)]
        ⟨⟨[⟨[5], 7⟩], [9, 9]⟩, [⟨[5]⟩]⟩ =
      .ok ⟨⟨⟨[⟨[5], 7⟩], [9, 9]⟩, [⟨[5]⟩]⟩, [], false⟩ :=
  maybe_sign_presigned_noop [([5], 41)]
    ⟨⟨[⟨[5], 7⟩], [9, 9]⟩, [⟨[5]⟩]⟩ (by decide)

/-! ### The once-guarded unlock (C8) -/

/-- State observed by the unlock machinery: whether the `sync.Once`
guard has fired, and the trace of per-input unlock invocations (by input
index, in invocation order). -/
structure UnlockOnce where
  fired : Bool
  trace : List Nat
deriving DecidableEq, Repr

/-- Embeds the combined unlock built by `SignTxMempool`: it defers each
collected per-input unlock in input order, so they run in reverse input
order. -/
def runUnlockers (n : Nat) (trace : List Nat) : List Nat :=
  trace ++ (List.range n).reverse

/-- Embeds the `sync.Once`-wrapped unlock returned by
`MaybeSignTxMempool` for `n` inputs: the first call runs the combined
unlock, any later call does nothing. -/
def guardedUnlock (n : Nat) (s : UnlockOnce) : UnlockOnce :=
  if s.fired then s else ⟨true, runUnlockers n s.trace⟩

/-- C8. The unlock returned by `MaybeSignTxMempool` when it signs is
idempotent: calling it twice (the eager `unlock()` after CheckTx plus
the deferred one in `BroadcastTxSync`) is observationally identical to
calling it once, and starting from the fresh guard each underlying
per-input unlock runs exactly once. -/
theorem unlock_idempotent (n : Nat) (s : UnlockOnce) (i : Nat) (hi : i < n) :
    guardedUnlock n (guardedUnlock n s) = guardedUnlock n s ∧
    (guardedUnlock n (guardedUnlock n ⟨false, []⟩)).trace.count i = 1 ∧
    guardedUnlock n (guardedUnlock n ⟨false, []⟩) =
      guardedUnlock n ⟨false, []⟩ := by
  have honce : ∀ s2 : UnlockOnce,
      guardedUnlock n (guardedUnlock n s2) = guardedUnlock n s2 := by
    intro s2
    by_cases hf : s2.fired
    · have h1 : guardedUnlock n s2 = s2 := by rw [guardedUnlock, if_pos hf]
      rw [h1]
      exact h1
    · have h1 : guardedUnlock n s2 = ⟨true, runUnlockers n s2.trace⟩ := by
        rw [guardedUnlock, if_neg hf]
      rw [h1, guardedUnlock]
      simp
  refine ⟨honce s, ?_, honce ⟨false, []⟩⟩
  rw [honce ⟨false, []⟩]
  rw [guardedUnlock]
  simp only [Bool.false_eq_true, if_false, runUnlockers, List.nil_append]
  rw [List.count_reverse]
  exact List.count_eq_one_of_mem (List.nodup_range n) (List.mem_range.mpr hi)

/-- Witness for C8 at a concrete input: three inputs, unlock called
twice from the fresh guard, input 1 unlocked exactly once. -/
theorem unlock_idempotent_witness :
    ((1 : Nat) < 3) ∧
    guardedUnlock 3 (guardedUnlock 3 ⟨false, [2]⟩) =
      guardedUnlock 3 ⟨false, [2]⟩ ∧
    (guardedUnlock 3 (guardedUnlock 3 ⟨false, []⟩)).trace.count 1 = 1 ∧
    guardedUnlock 3 (guardedUnlock 3 ⟨false, []⟩) =
      guardedUnlock 3 ⟨false, []⟩ := by
  have h := unlock_idempotent 3 ⟨false, [2]⟩ 1 (by decide)
  exact ⟨by decide, h.1, h.2.1, h.2.2⟩

/-! ### BroadcastTxSync result handling (C7) -/

/-- An execution error code as compared by `BroadcastTxSync`:
`ExecutionReverted` or any other code. -/
inductive ErrorCode where
  | executionReverted
  | otherCode (n : Nat)
deriving DecidableEq, Repr

/-- The committed transaction execution as the Transactor observes it:
`callError` embeds `txe.CallError()` (nil when the execution carried no
call error). -/
structure TxExecution where
  callError : Option ErrorCode
deriving DecidableEq, Repr

inductive BroadcastErr where
  | executionException (code : ErrorCode)
deriving DecidableEq, Repr

/-- Embeds the receive branch of `BroadcastTxSync` (the `msg := <-out`
case): a non-revert call error is surfaced as an error, otherwise the
`TxExecution` itself is returned. -/
def receiveTxExecution (txe : TxExecution) :
    Except BroadcastErr TxExecution :=
  match txe.callError with
  | some code =>
    if code ≠ .executionReverted then .error (.executionException code)
    else .ok txe
  | none => .ok txe

/-- C7. When `BroadcastTxSync` receives the committed `TxExecution`,
it returns an error exactly when the execution carries a call error
whose code is not `ExecutionReverted`; with no call error or a revert,
the `TxExecution` itself is returned with the exception included. -/
theorem broadcast_sync_revert_handling (txe : TxExecution) :
    (∀ code, txe.callError = some code → code ≠ .executionReverted →
      receiveTxExecution txe = .error (.executionException code)) ∧
    (txe.callError = none → receiveTxExecution txe = .ok txe) ∧
    (txe.callError = some .executionReverted →
      receiveTxExecution txe = .ok txe) := by
  refine ⟨?_, ?_, ?_⟩
  · intro code hc hne
    rw [receiveTxExecution, hc]
    simp [hne]
  · intro hc
    rw [receiveTxExecution, hc]
  · intro hc
    rw [receiveTxExecution, hc]
    simp

/-- Witness for C7 at concrete inputs: a non-revert call error is
surfaced as an error; a revert and a clean execution are returned
successfully. -/
theorem broadcast_sync_revert_handling_witness :
    receiveTxExecution ⟨some (.otherCode 5)⟩ =
      .error (.executionException (.otherCode 5)) ∧
    receiveTxExecution ⟨none⟩ = .ok ⟨none⟩ ∧
    receiveTxExecution ⟨some .executionReverted⟩ =
      .ok ⟨some .executionReverted⟩ :=
  ⟨(broadcast_sync_revert_handling ⟨some (.otherCode 5)⟩).1 (.otherCode 5)
      rfl (by decide),
    (broadcast_sync_revert_handling ⟨none⟩).2.1 rfl,
    (broadcast_sync_revert_handling ⟨some .executionReverted⟩).2.2 rfl⟩

end Burrow
